import Mathlib

/-!
Verification of `string-interner` (`src/lib.rs`), a string interning data
structure built from a `HashMap<InternalStrRef, Sym>` index and a
`Vec<Box<str>>` arena.

The development has two embeddings:

* A content-level embedding (`Interner`): `InternalStrRef` hashes and compares
  strictly by the referenced characters (`impl Hash`/`impl PartialEq` at
  lib.rs:92-102), so the hash map behaves observationally as a map from string
  content to symbol. We model the `HashMap` as an association list with unique
  keys (`findMap`/`insertMap` mirror `HashMap::get`/`HashMap::insert`) and the
  `Vec<Box<str>>` as a `List String`. Symbols are instantiated at
  `Sym = usize` (`DefaultStringInterner`), i.e. `Nat`: `Sym::from_usize` and
  `Sym::to_usize` are total there. A separate family with a representable
  range bound `W` (`from_usizeB` returning `Option`) models the generic
  numeric symbol abstraction, where `FromPrimitive::from_usize` yields `None`
  out of range and `.unwrap()` panics.

* A provenance-level embedding (`RInterner`): each `InternalStrRef` carries,
  besides the characters it dereferences to, the provenance of the memory its
  raw `*const str` points into (the caller's argument storage, or a boxed
  buffer of a particular interner instance). This tracks which storage the
  index keys reference across `gensym` (lib.rs:154-162) and the derived
  `Clone` (lib.rs:117).
-/

/-- Lookup in the association list modelling `HashMap<InternalStrRef, Sym>`:
returns the value of the (unique) entry whose key content equals `k`,
mirroring `HashMap::get` under content-based key equality. -/
def findMap : List (String × Nat) → String → Option Nat
  | [], _ => none
  | e :: m, k => if e.1 = k then some e.2 else findMap m k

/-- Insertion into the association list modelling `HashMap::insert`:
replaces the value of an existing entry with equal key content, otherwise
appends a new entry. -/
def insertMap : List (String × Nat) → String → Nat → List (String × Nat)
  | [], k, v => [(k, v)]
  | e :: m, k, v => if e.1 = k then (k, v) :: m else e :: insertMap m k v

/-- Content-level embedding of `StringInterner<Sym>` (lib.rs:117-123) at the
default instantiation `Sym = usize`: `map: HashMap<InternalStrRef, Sym>`
modelled by content (keys compare by the referenced characters), and
`values: Vec<Box<str>>` modelled as the list of buffer contents. -/
structure Interner where
  map : List (String × Nat)
  values : List String
deriving DecidableEq, Repr

namespace Interner

/-- `StringInterner::with_capacity` (lib.rs:129-134): both backing structures
start empty; the capacity argument only reserves storage and holds no
entries. -/
def with_capacity (_cap : Nat) : Interner :=
  ⟨[], []⟩

/-- `StringInterner::len` (lib.rs:187-189): `self.values.len()`. -/
def len (s : Interner) : Nat :=
  s.values.length

/-- `StringInterner::make_symbol` (lib.rs:165-167):
`Sym::from_usize(self.len()).unwrap()`; total at `Sym = usize`. -/
def make_symbol (s : Interner) : Nat :=
  s.len

/-- `StringInterner::gensym` (lib.rs:154-162): computes the new symbol, pushes
the value into the arena and inserts the content-keyed entry into the map.
Returns the symbol together with the updated interner (the Rust method
mutates `self`). -/
def gensym (s : Interner) (new_val : String) : Nat × Interner :=
  let new_id := s.make_symbol
  (new_id, ⟨insertMap s.map new_val new_id, s.values ++ [new_val]⟩)

/-- `StringInterner::get_or_intern` (lib.rs:142-149): probes the map by
content; on a hit returns the stored symbol, on a miss calls `gensym`. -/
def get_or_intern (s : Interner) (val : String) : Nat × Interner :=
  match findMap s.map val with
  | some idx => (idx, s)
  | none => s.gensym val

/-- `StringInterner::get` (lib.rs:171-175):
`self.values.get(symbol.to_usize().unwrap())`, i.e. checked indexing into the
arena; `to_usize` is total at `Sym = usize` and `Vec::get` returns `None` out
of range. -/
def get (s : Interner) (symbol : Nat) : Option String :=
  s.values[symbol]?

/-- `StringInterner::lookup_symbol` (lib.rs:178-184): content lookup in the
map. -/
def lookup_symbol (s : Interner) (val : String) : Option Nat :=
  findMap s.map val

/-- `StringInterner::clear` (lib.rs:207-210): `self.map.clear();
self.values.clear()` empties both structures. -/
def clear (_s : Interner) : Interner :=
  ⟨[], []⟩

/-- Runs a sequence of `get_or_intern` calls, returning the final interner
and the list of symbols returned call by call. -/
def runIntern : Interner → List String → Interner × List Nat
  | s, [] => (s, [])
  | s, x :: xs =>
    let r := s.get_or_intern x
    let rest := runIntern r.2 xs
    (rest.1, r.1 :: rest.2)

/-- The interner states reachable by constructor, `get_or_intern` and
`clear`. -/
inductive Reachable : Interner → Prop
  | mk (cap : Nat) : Reachable (with_capacity cap)
  | intern (s : Interner) (val : String) : Reachable s →
      Reachable (s.get_or_intern val).2
  | wipe (s : Interner) : Reachable s → Reachable s.clear

end Interner

/-- Index of the first occurrence of `x` in `l`, if any. -/
def firstIdx : List String → String → Option Nat
  | [], _ => none
  | y :: l, x => if y = x then some 0 else (firstIdx l x).map (· + 1)

/-- The keys of the association list modelling the hash map. -/
def mapKeys (m : List (String × Nat)) : List String :=
  m.map (fun e => e.1)

/-- Inserts each element of the second list in turn at the end of the
accumulator, keeping only first occurrences: the arena contents produced by
interning the list into an interner whose arena already holds `acc`. -/
def addNew (acc : List String) : List String → List String
  | [] => acc
  | x :: xs => if x ∈ acc then addNew acc xs else addNew (acc ++ [x]) xs

/-- The distinct contents of `xs`, in order of first occurrence. -/
def firstDedup (xs : List String) : List String :=
  addNew [] xs

namespace Interner

/-- `num_traits::FromPrimitive::from_usize` for a fixed-width unsigned symbol
type whose representable values are `0, ..., W - 1`: `Some n` exactly on the
representable range, `None` (never a truncated value) outside it. -/
def from_usizeB (W n : Nat) : Option Nat :=
  if n < W then some n else none

/-- `StringInterner::make_symbol` (lib.rs:165-167) for a bounded symbol type:
`Sym::from_usize(self.len())`; the trailing `.unwrap()` panics on `None`,
modelled by propagating `none`. -/
def make_symbolB (W : Nat) (s : Interner) : Option Nat :=
  from_usizeB W s.len

/-- `StringInterner::gensym` (lib.rs:154-162) for a bounded symbol type. In
the source, the `.unwrap()` inside `make_symbol` executes at line 157,
before the `Vec::push` of line 159 and the `HashMap::insert` of line 160;
when it panics (the `none` branch), control never reaches the push or the
insert, so the interner is left unchanged. -/
def gensymB (W : Nat) (s : Interner) (new_val : String) : Option (Nat × Interner) :=
  match make_symbolB W s with
  | none => none
  | some new_id => some (new_id, ⟨insertMap s.map new_val new_id, s.values ++ [new_val]⟩)

/-- `StringInterner::get_or_intern` (lib.rs:142-149) for a bounded symbol
type. -/
def get_or_internB (W : Nat) (s : Interner) (val : String) : Option (Nat × Interner) :=
  match findMap s.map val with
  | some idx => some (idx, s)
  | none => gensymB W s val

/-- `PartialEq` of `HashMap<InternalStrRef, Sym>`: two hash maps compare
equal when they have the same length and every key-value pair of the first
occurs in the second; keys compare by the referenced characters
(`impl PartialEq for InternalStrRef`, lib.rs:98-102). -/
def mapEqB (m1 m2 : List (String × Nat)) : Bool :=
  m1.length == m2.length && m1.all (fun e => findMap m2 e.1 == some e.2)

/-- The derived `PartialEq` of `StringInterner` (lib.rs:117) compares
field-wise: the `map` field (hash-map equality) and the `values` field
(element-wise buffer contents). -/
def interner_eq (s t : Interner) : Bool :=
  mapEqB s.map t.map && s.values == t.values

end Interner

/-- Provenance of the memory a `*const str` points into: either the storage
backing the caller's argument of the `call`-th `get_or_intern` call, or the
heap buffer boxed at arena position `slot` of the interner instance
identified by `owner`. -/
inductive Prov
  | callerArg (call : Nat)
  | arenaBox (owner : Nat) (slot : Nat)
deriving DecidableEq, Repr

/-- Provenance-level embedding of `InternalStrRef` (lib.rs:58-59): the raw
`*const str` is modelled by the provenance of the storage it points into
together with the characters it dereferences to. `Hash` and `PartialEq`
(lib.rs:92-102) use only `content`; `Copy`/`Clone` (lib.rs:58) duplicate the
pointer, i.e. preserve `prov`. -/
structure InternalStrRef where
  prov : Prov
  content : String
deriving DecidableEq, Repr

/-- Provenance-level embedding of `StringInterner` (lib.rs:117-123): `owner`
identifies this instance; the arena buffer at position `i` of instance `o`
occupies storage of provenance `Prov.arenaBox o i`. -/
structure RInterner where
  owner : Nat
  map : List (InternalStrRef × Nat)
  values : List String
deriving DecidableEq, Repr

namespace RInterner

/-- Provenance-level `StringInterner::gensym` (lib.rs:154-162), instantiated
at `T = &str` (the instantiation exercised by the crate's doctest and tests),
for the `call`-th `get_or_intern` call — the miss path of `get_or_intern`:

* line 157 computes `new_id` from the current length;
* line 158 creates `new_ref = InternalStrRef::from_str(new_val.as_ref())`, a
  raw pointer into the storage backing the caller's argument, hence
  provenance `Prov.callerArg call`;
* line 159 pushes `new_val.into().into_boxed_str()` — for `&str`,
  `Into::<String>::into` is `String::from`, which copies the characters into
  a fresh heap allocation, so the pushed buffer occupies new storage of
  provenance `Prov.arenaBox s.owner s.values.length`, distinct from the
  storage `new_ref` points into;
* line 160 inserts the pair `(new_ref, new_id)` into the map (the key is
  fresh on this path, so `HashMap::insert` adds a new entry). -/
def gensym (call : Nat) (s : RInterner) (new_val : String) : Nat × RInterner :=
  let new_id := s.values.length
  let new_ref : InternalStrRef := ⟨Prov.callerArg call, new_val⟩
  (new_id, ⟨s.owner, s.map ++ [(new_ref, new_id)], s.values ++ [new_val]⟩)

/-- The derived `Clone` of `StringInterner` (lib.rs:117) at provenance level:
`values` is cloned buffer by buffer (`Box<str>::clone` allocates fresh
buffers with equal contents, owned by the new instance `new_owner`), while
`map` is cloned entry by entry — `InternalStrRef` is `Copy` (lib.rs:58), so
each cloned key keeps the original raw pointer, i.e. its provenance, bit for
bit. -/
def clone (new_owner : Nat) (s : RInterner) : RInterner :=
  ⟨new_owner, s.map, s.values⟩

end RInterner

namespace Interner

/-- The representation invariant tying the map to the arena: arena contents
are pairwise distinct, map keys are unique, and the map's entries are exactly
the pairs (content, position of that content in the arena). -/
structure Inv (s : Interner) : Prop where
  nodupValues : s.values.Nodup
  nodupKeys : (mapKeys s.map).Nodup
  mem_iff : ∀ k n, (k, n) ∈ s.map ↔ firstIdx s.values k = some n

end Interner

theorem firstIdx_some_lt {l : List String} {x : String} {n : Nat}
    (h : firstIdx l x = some n) : n < l.length := by
  induction l generalizing n with
  | nil => simp [firstIdx] at h
  | cons y l ih =>
    by_cases hyx : y = x
    · simp [firstIdx, hyx] at h
      simp only [List.length_cons]
      omega
    · cases hf : firstIdx l x with
      | none => simp [firstIdx, hyx, hf] at h
      | some m =>
        simp [firstIdx, hyx, hf] at h
        have := ih hf
        simp only [List.length_cons]
        omega

theorem firstIdx_getElem? {l : List String} {x : String} {n : Nat}
    (h : firstIdx l x = some n) : l[n]? = some x := by
  induction l generalizing n with
  | nil => simp [firstIdx] at h
  | cons y l ih =>
    simp only [firstIdx] at h
    by_cases hyx : y = x
    · simp [hyx] at h
      simp [← h, hyx]
    · simp [hyx] at h
      obtain ⟨m, hm, rfl⟩ := h
      simpa using ih hm

theorem firstIdx_eq_none_iff {l : List String} {x : String} :
    firstIdx l x = none ↔ x ∉ l := by
  induction l with
  | nil => simp [firstIdx]
  | cons y l ih =>
    by_cases hyx : y = x
    · simp [firstIdx, hyx]
    · simp [firstIdx, hyx, ih, Ne.symm hyx]

theorem firstIdx_append_left {l l' : List String} {x : String} {n : Nat}
    (h : firstIdx l x = some n) : firstIdx (l ++ l') x = some n := by
  induction l generalizing n with
  | nil => simp [firstIdx] at h
  | cons y l ih =>
    by_cases hyx : y = x
    · simp [firstIdx, hyx] at h
      simp [firstIdx, hyx]
      omega
    · cases hf : firstIdx l x with
      | none => simp [firstIdx, hyx, hf] at h
      | some m =>
        simp [firstIdx, hyx, hf] at h
        simp [firstIdx, hyx, ih hf]
        omega

theorem firstIdx_append_singleton_of_none {l : List String} {y x : String}
    (h : firstIdx l x = none) :
    firstIdx (l ++ [y]) x = if y = x then some l.length else none := by
  induction l with
  | nil =>
    by_cases hyx : y = x <;> simp [firstIdx, hyx]
  | cons z l ih =>
    by_cases hzx : z = x
    · simp [firstIdx, hzx] at h
    · have hl : firstIdx l x = none := by
        simp [firstIdx, hzx] at h
        exact h
      have h1 : firstIdx ((z :: l) ++ [y]) x = (firstIdx (l ++ [y]) x).map (· + 1) := by
        rw [List.cons_append]
        show (if z = x then some 0 else (firstIdx (l ++ [y]) x).map (· + 1)) = _
        rw [if_neg hzx]
      rw [h1, ih hl]
      by_cases hyx : y = x <;> simp [hyx]

theorem firstIdx_nodup_getElem {l : List String} (hl : l.Nodup) {n : Nat}
    (h : n < l.length) : firstIdx l (l.get ⟨n, h⟩) = some n := by
  induction l generalizing n with
  | nil => simp at h
  | cons y l ih =>
    cases n with
    | zero => simp [firstIdx]
    | succ m =>
      have hm : m < l.length := by simpa using h
      have hymem : l.get ⟨m, hm⟩ ∈ l := List.get_mem l m hm
      have hy : y ∉ l := (List.nodup_cons.mp hl).1
      have hne : y ≠ l.get ⟨m, hm⟩ := fun he => hy (he ▸ hymem)
      simp only [List.get_cons_succ, firstIdx, hne, if_false]
      rw [ih (List.nodup_cons.mp hl).2 hm]
      rfl

theorem findMap_eq_none_iff {m : List (String × Nat)} {k : String} :
    findMap m k = none ↔ ∀ v, (k, v) ∉ m := by
  induction m with
  | nil => simp [findMap]
  | cons e m ih =>
    by_cases he : e.1 = k
    · subst he
      simp only [findMap, if_pos rfl]
      constructor
      · intro h
        exact absurd h (by simp)
      · intro h
        exact absurd (show (e.1, e.2) ∈ e :: m by simp) (h e.2)
    · simp only [findMap, if_neg he, ih]
      constructor
      · intro h v hv
        rcases List.mem_cons.mp hv with hv | hv
        · exact he (by rw [← hv])
        · exact h v hv
      · intro h v hv
        exact h v (List.mem_cons_of_mem _ hv)

theorem findMap_mem {m : List (String × Nat)} {k : String} {n : Nat}
    (h : findMap m k = some n) : (k, n) ∈ m := by
  induction m with
  | nil => simp [findMap] at h
  | cons e m ih =>
    by_cases he : e.1 = k
    · simp only [findMap, if_pos he] at h
      subst he
      cases h
      simp
    · simp only [findMap, if_neg he] at h
      exact List.mem_cons_of_mem _ (ih h)

theorem insertMap_of_not_mem {m : List (String × Nat)} {k : String} {v : Nat}
    (h : ∀ w, (k, w) ∉ m) : insertMap m k v = m ++ [(k, v)] := by
  induction m with
  | nil => simp [insertMap]
  | cons e m ih =>
    by_cases he : e.1 = k
    · exact absurd (by simp [← he]) (h e.2)
    · simp only [insertMap, if_neg he, List.cons_append, List.cons.injEq, true_and]
      exact ih (fun w hw => h w (List.mem_cons_of_mem _ hw))

theorem mem_mapKeys {m : List (String × Nat)} {k : String} :
    k ∈ mapKeys m ↔ ∃ v, (k, v) ∈ m := by
  simp only [mapKeys, List.mem_map]
  constructor
  · rintro ⟨e, he, rfl⟩
    exact ⟨e.2, he⟩
  · rintro ⟨v, hv⟩
    exact ⟨(k, v), hv, rfl⟩

namespace Interner

theorem Inv.findMap_eq {s : Interner} (hs : s.Inv) (k : String) :
    findMap s.map k = firstIdx s.values k := by
  cases h : firstIdx s.values k with
  | none =>
    rw [findMap_eq_none_iff]
    intro v hv
    rw [hs.mem_iff k v] at hv
    rw [h] at hv
    exact Option.noConfusion hv
  | some n =>
    cases h2 : findMap s.map k with
    | none =>
      rw [findMap_eq_none_iff] at h2
      exact absurd ((hs.mem_iff k n).mpr h) (h2 n)
    | some v =>
      have := (hs.mem_iff k v).mp (findMap_mem h2)
      rw [h] at this
      cases this
      rfl

theorem Inv.with_capacity (cap : Nat) : (Interner.with_capacity cap).Inv := by
  refine ⟨List.nodup_nil, List.nodup_nil, fun k n => ?_⟩
  simp [Interner.with_capacity, firstIdx]

theorem Inv.clear (s : Interner) : s.clear.Inv := by
  refine ⟨List.nodup_nil, List.nodup_nil, fun k n => ?_⟩
  simp [Interner.clear, firstIdx]

theorem Inv.get_or_intern {s : Interner} (hs : s.Inv) (val : String) :
    (s.get_or_intern val).2.Inv := by
  unfold Interner.get_or_intern
  cases h : findMap s.map val with
  | some idx => exact hs
  | none =>
    simp only
    have hnot : ∀ w, (val, w) ∉ s.map := findMap_eq_none_iff.mp h
    have hfi : firstIdx s.values val = none := by
      rw [← hs.findMap_eq]; exact h
    have hvne : val ∉ s.values := firstIdx_eq_none_iff.mp hfi
    have hmap : insertMap s.map val s.make_symbol = s.map ++ [(val, s.make_symbol)] :=
      insertMap_of_not_mem hnot
    constructor
    · show (s.values ++ [val]).Nodup
      simp [List.nodup_append, hs.nodupValues, hvne]
    · show (mapKeys (insertMap s.map val s.make_symbol)).Nodup
      rw [hmap]
      have hkeys : mapKeys (s.map ++ [(val, s.make_symbol)]) = mapKeys s.map ++ [val] := by
        simp [mapKeys]
      rw [hkeys]
      have hvk : val ∉ mapKeys s.map := by
        rw [mem_mapKeys]
        rintro ⟨v, hv⟩
        exact hnot v hv
      simp [List.nodup_append, hs.nodupKeys, hvk]
    · intro k n
      show (k, n) ∈ insertMap s.map val s.make_symbol ↔
        firstIdx (s.values ++ [val]) k = some n
      rw [hmap, List.mem_append, List.mem_singleton]
      by_cases hk : k = val
      · subst hk
        rw [firstIdx_append_singleton_of_none hfi, if_pos rfl]
        constructor
        · rintro (hmem | he)
          · exact absurd hmem (hnot n)
          · cases he
            rfl
        · intro he
          right
          cases he
          rfl
      · have hne : ¬ (k, n) = (val, s.make_symbol) := by
          intro he
          cases he
          exact hk rfl
        rw [hs.mem_iff k n]
        cases hfk : firstIdx s.values k with
        | some m =>
          rw [firstIdx_append_left hfk]
          simp [hne]
        | none =>
          rw [firstIdx_append_singleton_of_none hfk, if_neg (fun he => hk he.symm)]
          simp [hne]

theorem Inv.reachable {s : Interner} (hs : Reachable s) : s.Inv := by
  induction hs with
  | mk cap => exact Inv.with_capacity cap
  | intern s val _ ih => exact ih.get_or_intern val
  | wipe s _ _ => exact Inv.clear s

end Interner

theorem get_or_intern_values_extend (s : Interner) (x : String) :
    ∃ t, (s.get_or_intern x).2.values = s.values ++ t := by
  unfold Interner.get_or_intern
  cases h : findMap s.map x with
  | some idx => exact ⟨[], by simp⟩
  | none => exact ⟨[x], rfl⟩

theorem runIntern_values_extend (s : Interner) (xs : List String) :
    ∃ t, (Interner.runIntern s xs).1.values = s.values ++ t := by
  induction xs generalizing s with
  | nil => exact ⟨[], by simp [Interner.runIntern]⟩
  | cons x xs ih =>
    obtain ⟨t1, h1⟩ := get_or_intern_values_extend s x
    obtain ⟨t2, h2⟩ := ih (s.get_or_intern x).2
    refine ⟨t1 ++ t2, ?_⟩
    show (Interner.runIntern (s.get_or_intern x).2 xs).1.values = _
    rw [h2, h1, List.append_assoc]

theorem get_or_intern_firstIdx {s : Interner} (hs : s.Inv) (x : String) :
    firstIdx (s.get_or_intern x).2.values x = some (s.get_or_intern x).1 := by
  unfold Interner.get_or_intern
  cases h : findMap s.map x with
  | some idx => exact (hs.findMap_eq x).symm.trans h
  | none =>
    have hfi : firstIdx s.values x = none := (hs.findMap_eq x).symm.trans h
    show firstIdx (s.values ++ [x]) x = some s.make_symbol
    rw [firstIdx_append_singleton_of_none hfi, if_pos rfl]
    rfl

theorem runIntern_inv {s : Interner} (hs : s.Inv) (xs : List String) :
    (Interner.runIntern s xs).1.Inv := by
  induction xs generalizing s with
  | nil => exact hs
  | cons x xs ih => exact ih (hs.get_or_intern x)

theorem runIntern_syms {s : Interner} (hs : s.Inv) (xs : List String) (i : Nat)
    (hi : i < xs.length) :
    ∃ n, (Interner.runIntern s xs).2[i]? = some n ∧
      firstIdx (Interner.runIntern s xs).1.values xs[i] = some n := by
  induction xs generalizing s i with
  | nil => simp at hi
  | cons x xs ih =>
    cases i with
    | zero =>
      refine ⟨(s.get_or_intern x).1, by simp [Interner.runIntern], ?_⟩
      obtain ⟨t, ht⟩ := runIntern_values_extend (s.get_or_intern x).2 xs
      have h1 := get_or_intern_firstIdx hs x
      have h2 : firstIdx (Interner.runIntern (s.get_or_intern x).2 xs).1.values x
          = some (s.get_or_intern x).1 := by
        rw [ht]
        exact firstIdx_append_left h1
      simpa [Interner.runIntern] using h2
    | succ m =>
      have hm : m < xs.length := by simpa using hi
      obtain ⟨n, h1, h2⟩ := ih (hs.get_or_intern x) m hm
      refine ⟨n, ?_, ?_⟩
      · simpa [Interner.runIntern] using h1
      · simpa [Interner.runIntern] using h2

/-- Sanity check against the crate's `intern_str` test (lib.rs:257-268): the
sequence foo, bar, baz, foo, rofl, bar, mao, foo yields the symbols
0, 1, 2, 0, 3, 1, 4, 0. -/
example :
    (Interner.runIntern (Interner.with_capacity 0)
      ["foo", "bar", "baz", "foo", "rofl", "bar", "mao", "foo"]).2 =
    [0, 1, 2, 0, 3, 1, 4, 0] := by
  rfl

/-- Sanity check against the crate's `intern_string` test (lib.rs:270-298):
eleven calls with seven distinct contents yield the symbols
0, 1, 2, 3, 4, 2, 5, 6, 2, 2, 3 and a final length of 7. -/
example :
    (Interner.runIntern (Interner.with_capacity 0)
      ["Hello", "World", "I am a String", "Foo", "Bar", "I am a String",
       "Next is empty", "", "I am a String", "I am a String", "Foo"]).2 =
      [0, 1, 2, 3, 4, 2, 5, 6, 2, 2, 3] ∧
    (Interner.runIntern (Interner.with_capacity 0)
      ["Hello", "World", "I am a String", "Foo", "Bar", "I am a String",
       "Next is empty", "", "I am a String", "I am a String", "Foo"]).1.len = 7 := by
  constructor <;> rfl

/-- Claim C1: for every interner and every string content, any two
`get_or_intern` calls with equal content return the same symbol, regardless
of how many other strings (equal or distinct) are interned between the two
calls. Formally: running any sequence `xs` of `get_or_intern` calls on any
reachable interner, positions `i` and `j` of `xs` holding equal content
receive equal symbols. -/
theorem C1_dedup_deterministic (s : Interner) (hs : Interner.Reachable s)
    (xs : List String) (i j : Nat) (hi : i < xs.length) (hj : j < xs.length)
    (heq : xs[i] = xs[j]) :
    (Interner.runIntern s xs).2[i]? = (Interner.runIntern s xs).2[j]? := by
  have hinv := Interner.Inv.reachable hs
  obtain ⟨n, hn1, hn2⟩ := runIntern_syms hinv xs i hi
  obtain ⟨m, hm1, hm2⟩ := runIntern_syms hinv xs j hj
  rw [heq] at hn2
  rw [hn2] at hm2
  cases hm2
  rw [hn1, hm1]

theorem C1_dedup_deterministic_witness :
    Interner.Reachable (Interner.with_capacity 0) ∧
    (0 : Nat) < 3 ∧ (2 : Nat) < 3 ∧
    (Interner.runIntern (Interner.with_capacity 0) ["foo", "bar", "foo"]).2[0]? =
      (Interner.runIntern (Interner.with_capacity 0) ["foo", "bar", "foo"]).2[2]? :=
  ⟨Interner.Reachable.mk 0, by decide, by decide,
    C1_dedup_deterministic _ (Interner.Reachable.mk 0) ["foo", "bar", "foo"] 0 2
      (by decide) (by decide) rfl⟩

/-- Claim C2: for every reachable interner state and every text, if
`s = get_or_intern(text)` then the public `get(symbol)` method returns
`Some(text)`, and this continues to hold after any further `get_or_intern`
calls (the trailing sequence `ys`, which may be empty). -/
theorem C2_round_trip (s : Interner) (hs : Interner.Reachable s) (text : String)
    (ys : List String) :
    (Interner.runIntern (s.get_or_intern text).2 ys).1.get (s.get_or_intern text).1 =
      some text := by
  have hinv := Interner.Inv.reachable hs
  have h1 := get_or_intern_firstIdx hinv text
  obtain ⟨t, ht⟩ := runIntern_values_extend (s.get_or_intern text).2 ys
  have h2 : firstIdx (Interner.runIntern (s.get_or_intern text).2 ys).1.values text
      = some (s.get_or_intern text).1 := by
    rw [ht]
    exact firstIdx_append_left h1
  exact firstIdx_getElem? h2

theorem firstIdx_mem_iff {l : List String} {x : String} :
    (∃ n, firstIdx l x = some n) ↔ x ∈ l := by
  constructor
  · rintro ⟨n, hn⟩
    by_contra hx
    rw [firstIdx_eq_none_iff.mpr hx] at hn
    exact Option.noConfusion hn
  · intro hx
    cases hf : firstIdx l x with
    | none => exact absurd hx (firstIdx_eq_none_iff.mp hf)
    | some n => exact ⟨n, rfl⟩

theorem get_or_intern_values {s : Interner} (hs : s.Inv) (x : String) :
    (s.get_or_intern x).2.values =
      if x ∈ s.values then s.values else s.values ++ [x] := by
  unfold Interner.get_or_intern
  cases h : findMap s.map x with
  | some idx =>
    have hx : x ∈ s.values := firstIdx_mem_iff.mp ⟨idx, (hs.findMap_eq x).symm.trans h⟩
    simp [hx]
  | none =>
    have hx : x ∉ s.values :=
      firstIdx_eq_none_iff.mp ((hs.findMap_eq x).symm.trans h)
    simp [hx]
    rfl

theorem runIntern_values_addNew {s : Interner} (hs : s.Inv) (xs : List String) :
    (Interner.runIntern s xs).1.values = addNew s.values xs := by
  induction xs generalizing s with
  | nil => rfl
  | cons x xs ih =>
    have ih2 := ih (hs.get_or_intern x)
    show (Interner.runIntern (s.get_or_intern x).2 xs).1.values = addNew s.values (x :: xs)
    rw [ih2, get_or_intern_values hs x]
    by_cases hx : x ∈ s.values <;> simp [addNew, hx]

theorem mem_addNew {acc xs : List String} {y : String} (h : y ∈ addNew acc xs) :
    y ∈ acc ∨ y ∈ xs := by
  induction xs generalizing acc with
  | nil => exact Or.inl h
  | cons x xs ih =>
    simp only [addNew] at h
    by_cases hx : x ∈ acc
    · rw [if_pos hx] at h
      rcases ih h with h | h
      · exact Or.inl h
      · exact Or.inr (List.mem_cons_of_mem _ h)
    · rw [if_neg hx] at h
      rcases ih h with h | h
      · rcases List.mem_append.mp h with h | h
        · exact Or.inl h
        · exact Or.inr (List.mem_cons.mpr (Or.inl (List.mem_singleton.mp h)))
      · exact Or.inr (List.mem_cons_of_mem _ h)

theorem runIntern_mem_syms {s : Interner} (hs : s.Inv) (xs : List String) (n : Nat) :
    n ∈ (Interner.runIntern s xs).2 ↔
      ∃ x, x ∈ xs ∧ firstIdx (Interner.runIntern s xs).1.values x = some n := by
  induction xs generalizing s with
  | nil => simp [Interner.runIntern]
  | cons x xs ih =>
    have hfix : firstIdx (Interner.runIntern (s.get_or_intern x).2 xs).1.values x
        = some (s.get_or_intern x).1 := by
      obtain ⟨t, ht⟩ := runIntern_values_extend (s.get_or_intern x).2 xs
      rw [ht]
      exact firstIdx_append_left (get_or_intern_firstIdx hs x)
    have ih2 := ih (hs.get_or_intern x)
    constructor
    · intro h
      rcases List.mem_cons.mp (show n ∈ (s.get_or_intern x).1 ::
          (Interner.runIntern (s.get_or_intern x).2 xs).2 from h) with h | h
      · refine ⟨x, List.mem_cons_self x xs, ?_⟩
        rw [← h] at hfix
        exact hfix
      · obtain ⟨y, hy, hy2⟩ := ih2.mp h
        exact ⟨y, List.mem_cons_of_mem _ hy, hy2⟩
    · rintro ⟨y, hy, hy2⟩
      show n ∈ (s.get_or_intern x).1 :: (Interner.runIntern (s.get_or_intern x).2 xs).2
      rcases List.mem_cons.mp hy with rfl | hy
      · have hy3 : firstIdx (Interner.runIntern (s.get_or_intern y).2 xs).1.values y
            = some n := hy2
        rw [hfix] at hy3
        cases hy3
        exact List.mem_cons_self _ _
      · exact List.mem_cons_of_mem _ (ih2.mpr ⟨y, hy, hy2⟩)

/-- Claim C3: density. After any sequence `xs` of `get_or_intern` calls on a
fresh interner, the arena holds the distinct contents of `xs` in
first-intern order (so `len()` equals the number `k` of distinct contents,
with no gaps and no reuse), and the set of symbols returned over the whole
sequence is exactly `{0, ..., k - 1}`. -/
theorem C3_density (cap : Nat) (xs : List String) :
    (Interner.runIntern (Interner.with_capacity cap) xs).1.values = firstDedup xs ∧
    (Interner.runIntern (Interner.with_capacity cap) xs).1.len = (firstDedup xs).length ∧
    ∀ n : Nat, n ∈ (Interner.runIntern (Interner.with_capacity cap) xs).2 ↔
      n < (firstDedup xs).length := by
  have hinv := Interner.Inv.with_capacity cap
  have hvals : (Interner.runIntern (Interner.with_capacity cap) xs).1.values = firstDedup xs :=
    runIntern_values_addNew hinv xs
  refine ⟨hvals, ?_, ?_⟩
  · show (Interner.runIntern (Interner.with_capacity cap) xs).1.values.length = _
    rw [hvals]
  · intro n
    rw [runIntern_mem_syms hinv xs n]
    constructor
    · rintro ⟨x, _, hfi⟩
      rw [hvals] at hfi
      exact firstIdx_some_lt hfi
    · intro hn
      have hnodup : (firstDedup xs).Nodup := by
        have h := (runIntern_inv hinv xs).nodupValues
        rw [hvals] at h
        exact h
      refine ⟨(firstDedup xs).get ⟨n, hn⟩, ?_, ?_⟩
      · have hmem : (firstDedup xs).get ⟨n, hn⟩ ∈ firstDedup xs :=
          List.get_mem _ n hn
        rcases mem_addNew hmem with h | h
        · exact absurd h (List.not_mem_nil _)
        · exact h
      · rw [hvals]
        exact firstIdx_nodup_getElem hnodup hn

theorem C2_round_trip_witness :
    Interner.Reachable (Interner.with_capacity 0) ∧
    (Interner.runIntern ((Interner.with_capacity 0).get_or_intern "foo").2
      ["bar", "qux"]).1.get ((Interner.with_capacity 0).get_or_intern "foo").1 =
      some "foo" :=
  ⟨Interner.Reachable.mk 0,
    C2_round_trip _ (Interner.Reachable.mk 0) "foo" ["bar", "qux"]⟩

theorem firstIdx_nodup_getElem' {l : List String} (hl : l.Nodup) {n : Nat}
    (h : n < l.length) : firstIdx l l[n] = some n := by
  have h2 := firstIdx_nodup_getElem hl h
  simpa using h2

theorem countP_eq_one_of_nodup_keys {m : List (String × Nat)} {k : String} {v : Nat}
    (hnd : (mapKeys m).Nodup) (hmem : (k, v) ∈ m) :
    m.countP (fun e => e.1 == k) = 1 := by
  induction m with
  | nil => simp at hmem
  | cons e m ih =>
    have hnd2 : e.1 ∉ mapKeys m ∧ (mapKeys m).Nodup := by
      have : mapKeys (e :: m) = e.1 :: mapKeys m := rfl
      rw [this] at hnd
      exact List.nodup_cons.mp hnd
    rcases List.mem_cons.mp hmem with he | he
    · have hk : e.1 = k := by rw [← he]
      have h0 : m.countP (fun e2 => e2.1 == k) = 0 := by
        rw [List.countP_eq_zero]
        intro a ha hpa
        have hak : a.1 = k := by simpa using hpa
        have ha2 : (e.1, a.2) ∈ m := by
          rw [hk, ← hak]
          simpa using ha
        exact hnd2.1 (mem_mapKeys.mpr ⟨a.2, ha2⟩)
      rw [List.countP_cons, h0]
      simp [hk]
    · have hkm : k ∈ mapKeys m := mem_mapKeys.mpr ⟨v, he⟩
      have hne : ¬ e.1 = k := fun hc => hnd2.1 (hc ▸ hkm)
      rw [List.countP_cons, ih hnd2.2 he]
      simp [hne]

/-- Claim C5: Arena/Index bijection invariant. In every state reachable by
constructor, `get_or_intern` and `clear`: no two arena slots hold equal
content, and each arena slot `i` has exactly one index entry whose key
content equals that slot's content — the entry whose value is `i`. -/
theorem C5_bijection (s : Interner) (hs : Interner.Reachable s) :
    s.values.Nodup ∧
    ∀ i : Nat, ∀ h : i < s.values.length,
      (s.values[i], i) ∈ s.map ∧
      s.map.countP (fun e => e.1 == s.values[i]) = 1 := by
  have hinv := Interner.Inv.reachable hs
  refine ⟨hinv.nodupValues, fun i h => ?_⟩
  have hfi : firstIdx s.values s.values[i] = some i :=
    firstIdx_nodup_getElem' hinv.nodupValues h
  have hmem : (s.values[i], i) ∈ s.map := (hinv.mem_iff _ i).mpr hfi
  exact ⟨hmem, countP_eq_one_of_nodup_keys hinv.nodupKeys hmem⟩

theorem C5_bijection_witness :
    Interner.Reachable ((Interner.with_capacity 0).get_or_intern "foo").2 ∧
    (((Interner.with_capacity 0).get_or_intern "foo").2.values.Nodup ∧
      ∀ i : Nat, ∀ h : i < ((Interner.with_capacity 0).get_or_intern "foo").2.values.length,
        ((((Interner.with_capacity 0).get_or_intern "foo").2.values[i]), i) ∈
          ((Interner.with_capacity 0).get_or_intern "foo").2.map ∧
        ((Interner.with_capacity 0).get_or_intern "foo").2.map.countP
          (fun e => e.1 == ((Interner.with_capacity 0).get_or_intern "foo").2.values[i]) = 1) :=
  ⟨Interner.Reachable.intern _ "foo" (Interner.Reachable.mk 0),
    C5_bijection _ (Interner.Reachable.intern _ "foo" (Interner.Reachable.mk 0))⟩

/-- Claim C6: out-of-range resolution is recoverable. For every interner and
every symbol whose count is at least the current length (in particular any
symbol never issued by, or invalidated for, this instance), the public
`get(symbol)` method returns `None`; in the model `get` is a total function,
mirroring that at the default `Sym = usize` instantiation the checked
`Vec::get` path never panics. -/
theorem C6_out_of_range (s : Interner) (n : Nat) (h : s.len ≤ n) :
    s.get n = none := by
  unfold Interner.get
  exact List.getElem?_eq_none h

theorem C6_out_of_range_witness :
    ((Interner.with_capacity 0).get_or_intern "foo").2.len ≤ 5 ∧
    ((Interner.with_capacity 0).get_or_intern "foo").2.get 5 = none :=
  ⟨by decide, C6_out_of_range _ 5 (by decide)⟩

/-- Claim C7: clear invalidation. Immediately after `clear()` the length is
0 and resolving any symbol (in particular any symbol valid before the clear)
returns `None`; subsequent `get_or_intern` calls behave exactly as on a
fresh interner, assigning symbols again from 0. -/
theorem C7_clear (s : Interner) (cap : Nat) :
    s.clear.len = 0 ∧
    (∀ n : Nat, s.clear.get n = none) ∧
    ∀ xs : List String, Interner.runIntern s.clear xs =
      Interner.runIntern (Interner.with_capacity cap) xs := by
  refine ⟨rfl, ?_, fun xs => rfl⟩
  intro n
  show ([] : List String)[n]? = none
  simp

theorem findMap_append_right {m : List (String × Nat)} {k : String} {v : Nat}
    (h : findMap m k = none) : findMap (m ++ [(k, v)]) k = some v := by
  induction m with
  | nil => simp [findMap]
  | cons e m ih =>
    by_cases he : e.1 = k
    · simp [findMap, he] at h
    · have h2 : findMap m k = none := by simpa [findMap, he] using h
      simpa [findMap, he] using ih h2

/-- Claim C8: overflow atomicity. With a bounded symbol type representing
exactly the counts below `W`, a miss at full numeric range makes
`get_or_intern` fail loudly (`none` models the `.unwrap()` panic of
`make_symbol`, which in the source executes before the arena push and the
index insert, so neither mutation happens and the interner is unchanged);
on every non-fatal miss path the push and the record are both completed. -/
theorem C8_overflow (W : Nat) (s : Interner) (val : String)
    (hmiss : findMap s.map val = none) :
    (W ≤ s.len → Interner.get_or_internB W s val = none) ∧
    (s.len < W → ∃ s' : Interner,
      Interner.get_or_internB W s val = some (s.len, s') ∧
      s'.values = s.values ++ [val] ∧
      findMap s'.map val = some s.len) := by
  constructor
  · intro hW
    simp [Interner.get_or_internB, hmiss, Interner.gensymB, Interner.make_symbolB,
      Interner.from_usizeB, Nat.not_lt.mpr hW]
  · intro hW
    refine ⟨⟨insertMap s.map val s.len, s.values ++ [val]⟩, ?_, rfl, ?_⟩
    · simp [Interner.get_or_internB, hmiss, Interner.gensymB, Interner.make_symbolB,
        Interner.from_usizeB, hW]
    · show findMap (insertMap s.map val s.len) val = some s.len
      rw [insertMap_of_not_mem (findMap_eq_none_iff.mp hmiss)]
      exact findMap_append_right hmiss

theorem C8_overflow_witness :
    findMap ((Interner.with_capacity 0).get_or_intern "a").2.map "b" = none ∧
    ((1 ≤ ((Interner.with_capacity 0).get_or_intern "a").2.len →
      Interner.get_or_internB 1 ((Interner.with_capacity 0).get_or_intern "a").2 "b" = none) ∧
     (((Interner.with_capacity 0).get_or_intern "a").2.len < 1 → ∃ s' : Interner,
      Interner.get_or_internB 1 ((Interner.with_capacity 0).get_or_intern "a").2 "b" =
        some (((Interner.with_capacity 0).get_or_intern "a").2.len, s') ∧
      s'.values = ((Interner.with_capacity 0).get_or_intern "a").2.values ++ ["b"] ∧
      findMap s'.map "b" = some ((Interner.with_capacity 0).get_or_intern "a").2.len)) :=
  ⟨by decide, C8_overflow 1 _ "b" (by decide)⟩

theorem map_length_eq {s : Interner} (hs : s.Inv) :
    s.map.length = s.values.length := by
  have hkeys : ∀ k, k ∈ mapKeys s.map ↔ k ∈ s.values := by
    intro k
    rw [mem_mapKeys]
    constructor
    · rintro ⟨v, hv⟩
      exact firstIdx_mem_iff.mp ⟨v, (hs.mem_iff k v).mp hv⟩
    · intro hk
      obtain ⟨n, hn⟩ := firstIdx_mem_iff.mpr hk
      exact ⟨n, (hs.mem_iff k n).mpr hn⟩
  have h1 : (mapKeys s.map).toFinset = s.values.toFinset := by
    ext k
    simp only [List.mem_toFinset]
    exact hkeys k
  have h2 : (mapKeys s.map).length = s.values.length := by
    calc (mapKeys s.map).length = (mapKeys s.map).toFinset.card :=
          (List.toFinset_card_of_nodup hs.nodupKeys).symm
      _ = s.values.toFinset.card := by rw [h1]
      _ = s.values.length := List.toFinset_card_of_nodup hs.nodupValues
  have h3 : (mapKeys s.map).length = s.map.length := by simp [mapKeys]
  omega

/-- Claim C10: equality characterization. For reachable interners, the
derived equality comparison (which compares the map field under hash-map
semantics and the values field element-wise) returns true exactly when the
two interners hold the same strings in the same insertion order; since the
index is derived from the arena on every reachable state, its contents do
not alter the outcome. -/
theorem C10_equality (s t : Interner) (hs : Interner.Reachable s)
    (ht : Interner.Reachable t) :
    Interner.interner_eq s t = true ↔ s.values = t.values := by
  have hsi := Interner.Inv.reachable hs
  have hti := Interner.Inv.reachable ht
  constructor
  · intro h
    unfold Interner.interner_eq at h
    rw [Bool.and_eq_true] at h
    simpa using h.2
  · intro h
    unfold Interner.interner_eq
    rw [Bool.and_eq_true]
    refine ⟨?_, by simpa using h⟩
    unfold Interner.mapEqB
    rw [Bool.and_eq_true]
    constructor
    · have h1 : s.map.length = s.values.length := map_length_eq hsi
      have h2 : t.map.length = t.values.length := map_length_eq hti
      simp [h1, h2, h]
    · rw [List.all_eq_true]
      intro e he
      have hfi : firstIdx s.values e.1 = some e.2 :=
        (hsi.mem_iff e.1 e.2).mp (by simpa using he)
      rw [h] at hfi
      have hfind : findMap t.map e.1 = some e.2 := (hti.findMap_eq e.1).trans hfi
      simp [hfind]

theorem C10_equality_witness :
    Interner.Reachable ((Interner.with_capacity 0).get_or_intern "a").2 ∧
    Interner.Reachable (Interner.runIntern (Interner.with_capacity 3) ["a", "a"]).1 ∧
    (Interner.interner_eq ((Interner.with_capacity 0).get_or_intern "a").2
        (Interner.runIntern (Interner.with_capacity 3) ["a", "a"]).1 = true ↔
      ((Interner.with_capacity 0).get_or_intern "a").2.values =
        (Interner.runIntern (Interner.with_capacity 3) ["a", "a"]).1.values) :=
  ⟨Interner.Reachable.intern _ "a" (Interner.Reachable.mk 0),
    Interner.Reachable.intern _ "a"
      (Interner.Reachable.intern _ "a" (Interner.Reachable.mk 3)),
    C10_equality _ _ (Interner.Reachable.intern _ "a" (Interner.Reachable.mk 0))
      (Interner.Reachable.intern _ "a"
        (Interner.Reachable.intern _ "a" (Interner.Reachable.mk 3)))⟩

/-- Claim C4, evaluated on the code: on the miss path of `get_or_intern`
(`gensym`, lib.rs:154-162), the index entry is inserted after the arena push
in program order, but its key was created at line 158 from
`new_val.as_ref()` — the caller's argument — before the push, and for
`T = &str` the pushed `Box<str>` is a fresh allocation. Interning "foo" into
a fresh interner therefore records a key referencing the caller's argument
storage (`Prov.callerArg 0`), which is not the just-pushed arena buffer of
the interner (`Prov.arenaBox 0 i` for any slot `i`), contradicting the
claim. -/
theorem C4_key_references_caller_storage :
    (RInterner.gensym 0 ⟨0, [], []⟩ "foo").2.map =
      [(⟨Prov.callerArg 0, "foo"⟩, 0)] ∧
    ∀ o i : Nat,
      (⟨Prov.callerArg 0, "foo"⟩ : InternalStrRef).prov ≠ Prov.arenaBox o i := by
  refine ⟨rfl, ?_⟩
  intro o i h
  exact Prov.noConfusion h

/-- Claim C9, evaluated on the code: the derived `Clone` (lib.rs:117)
deep-copies the buffers but clones the index by copying each
`InternalStrRef` key bit for bit (`InternalStrRef` is `Copy`, lib.rs:58).
Cloning an interner that interned "foo" yields an index whose sole key still
carries the original raw pointer — here into the caller's argument storage
of the original's intern call (`Prov.callerArg 0`), shared with the
original's index — and not a reference into the clone's own buffer copies
(`Prov.arenaBox 1 i`), contradicting the claim. -/
theorem C9_clone_shares_index_references :
    (RInterner.clone 1 (RInterner.gensym 0 ⟨0, [], []⟩ "foo").2).map =
      (RInterner.gensym 0 ⟨0, [], []⟩ "foo").2.map ∧
    (RInterner.clone 1 (RInterner.gensym 0 ⟨0, [], []⟩ "foo").2).map =
      [(⟨Prov.callerArg 0, "foo"⟩, 0)] ∧
    ∀ i : Nat,
      (⟨Prov.callerArg 0, "foo"⟩ : InternalStrRef).prov ≠ Prov.arenaBox 1 i := by
  refine ⟨rfl, rfl, ?_⟩
  intro i h
  exact Prov.noConfusion h
